import Mathlib

/-!
# Verification of the test-content discovery engine (Discovery.cpp)

Shallow embedding of `Sources/_TestingInternals/Discovery.cpp`: the record
walker `swt_enumerateTestContent`, the per-platform section locators
(Apple, Windows, ELF, static fallback), and the record framing arithmetic.

Addresses are modelled as `Nat`.  The three 32-bit header fields
(`n_namesz`, `n_descsz`, `n_type`) are `int32_t` in C; the claims under
study only concern non-negative field values, so they are modelled as
`Nat` (negative values fall outside every claim's hypotheses).
-/

namespace Discovery

/-- Model of `__builtin_align_up(x, a)` for a power-of-two alignment `a`:
round `x` up to the next multiple of `a`.  In C this is
`(x + a - 1) & ~(a - 1)`, which for `a > 0` a power of two equals
`((x + a - 1) / a) * a`. -/
def alignUp (x a : Nat) : Nat := ((x + a - 1) / a) * a

/-- The value of `alignof(uintptr_t)` on the (64-bit) target: records are padded to
pointer-size alignment. -/
def ptrSize : Nat := 8

/-- The header type `SWTTestContentHeader` (Discovery.h): three 32-bit fields.  The C
fields are `int32_t`; the claims only concern non-negative values, which
`Nat` models. -/
structure SWTTestContentHeader where
  n_namesz : Nat
  n_descsz : Nat
  n_type : Nat
  deriving Repr, DecidableEq

/-- The value of `sizeof(SWTTestContentHeader)`: three 32-bit integers. -/
def headerSize : Nat := 12

/-- The distance from one record header to the next, as computed by the
`next` lambda in `swt_enumerateTestContent`:
`__builtin_align_up(sizeof(*header) + __builtin_align_up(n_namesz, 4) + n_descsz, alignof(uintptr_t))`. -/
def recordSize (h : SWTTestContentHeader) : Nat :=
  alignUp (headerSize + alignUp h.n_namesz 4 + h.n_descsz) ptrSize

/-- Memory, as far as the walker reads it: the header stored at each
address. -/
def Mem : Type := Nat → SWTTestContentHeader

/-- The `next` lambda: the address of the record following the one whose
header is at `addr`. -/
def nextAddr (mem : Mem) (addr : Nat) : Nat := addr + recordSize (mem addr)

/-- The record loop of `swt_enumerateTestContent`, for one section:

```
auto header = (const SWTTestContentHeader *)sb.start;
auto end = (uintptr_t)sb.start + sb.size;
for (; (uintptr_t)header < end; header = next(header)) {
  body(sb.imageAddress, header, stop, context);
}
```

The loop condition tests only `header < end`; it does not consult
`*stop`.  The visitor is modelled by the new value it assigns to
`*stop`, as a function `f` of the global invocation index and the flag's
current value (everything a deterministic visitor can observe is a
function of that index, for fixed memory and sections).  `walkRecords`
returns the list of visited header addresses, the updated invocation
counter, and the final value of the stop flag. -/
def walkRecords (f : Nat → Bool → Bool) (mem : Mem) (ends addr k : Nat)
    (stop : Bool) : List Nat × Nat × Bool :=
  if h : addr < ends then
    let stop' := f k stop
    let r := walkRecords f mem ends (nextAddr mem addr) (k + 1) stop'
    (addr :: r.1, r.2)
  else
    ([], k, stop)
termination_by ends - addr
decreasing_by
  have hpos : 0 < recordSize (mem addr) := by
    unfold recordSize alignUp headerSize ptrSize
    omega
  unfold nextAddr
  omega

/-- The structure `SWTSectionBounds`: image base address (if known), section start
address, section size in bytes. -/
structure SWTSectionBounds where
  imageAddress : Option Nat
  start : Nat
  size : Nat
  deriving Repr, DecidableEq

/-- The section-level loop shared by the Apple and Windows locators:

```
bool stop = false;
for (const auto& sb : sections) {
  body(sb, &stop);
  if (stop) { break; }
}
```

where `body` is the record-walking lambda of `swt_enumerateTestContent`.
Returns the visit list: one `(imageAddress, header address)` pair per
visitor invocation, in order. -/
def enumSections (f : Nat → Bool → Bool) (mem : Mem) :
    List SWTSectionBounds → Nat → Bool → List (Option Nat × Nat)
  | [], _, _ => []
  | sb :: rest, k, stop =>
    let r := walkRecords f mem (sb.start + sb.size) sb.start k stop
    (r.1.map fun a => (sb.imageAddress, a)) ++
      (if r.2.2 then [] else enumSections f mem rest r.2.1 r.2.2)

/-- The entry point `swt_enumerateTestContent`, given the section list produced by the
active locator: drives the record walker over each section, with the
stop flag shared across sections. -/
def swt_enumerateTestContent (f : Nat → Bool → Bool) (mem : Mem)
    (sections : List SWTSectionBounds) : List (Option Nat × Nat) :=
  enumSections f mem sections 0 false

/-! ### Well-formed section layouts

A section holding the records `hs` back-to-back from address `start`:
`recordAddrs` gives each record's header address, `sectionSize` the total
byte size, and `memLaysOut` says memory holds those headers at those
addresses. -/

/-- Header addresses of records laid out back-to-back from `start`. -/
def recordAddrs (start : Nat) : List SWTTestContentHeader → List Nat
  | [] => []
  | h :: hs => start :: recordAddrs (start + recordSize h) hs

/-- Total byte size of records laid out back-to-back. -/
def sectionSize : List SWTTestContentHeader → Nat
  | [] => 0
  | h :: hs => recordSize h + sectionSize hs

/-- Memory holds the records `hs` back-to-back from address `start`. -/
def memLaysOut (mem : Mem) : Nat → List SWTTestContentHeader → Prop
  | _, [] => True
  | start, h :: hs => mem start = h ∧ memLaysOut mem (start + recordSize h) hs

/-! ### ELF-family section locator

`enumerateTestContentSections` for `__linux__`/`__FreeBSD__`/`__ANDROID__`:
`dl_iterate_phdr` invokes a callback once per loaded image; the callback
scans the image's program headers, and every header of type `PT_NOTE`
yields a `SWTSectionBounds` passed straight to the body. -/

/-- The constant `PT_NOTE`, the ELF "note" program-header type. -/
def PT_NOTE : Nat := 4

/-- One program header, as read by the callback: type, virtual address,
memory size. -/
structure ElfPhdr where
  p_type : Nat
  p_vaddr : Nat
  p_memsz : Nat
  deriving Repr, DecidableEq

/-- One loaded image as presented by `dl_iterate_phdr`: base address and
program-header table. -/
structure ElfImage where
  dlpi_addr : Nat
  dlpi_phdr : List ElfPhdr
  deriving Repr, DecidableEq

/-- The `SWTSectionBounds` built from a note header: image base, image
base plus the header's virtual address, the header's memory size. -/
def elfSection (img : ElfImage) (phdr : ElfPhdr) : SWTSectionBounds :=
  ⟨some img.dlpi_addr, img.dlpi_addr + phdr.p_vaddr, phdr.p_memsz⟩

/-- The callback's header loop:
`for (i = 0; !stop && i < phnum; i++) if (p_type == PT_NOTE) { body(sb, &stop); }`.
The body is modelled by the value it leaves in `*stop`.  Returns the
bounds passed to the body, in order, and the final stop value. -/
def elfPhdrLoop (body : Bool → SWTSectionBounds → Bool) (img : ElfImage) :
    List ElfPhdr → Bool → List SWTSectionBounds × Bool
  | [], stop => ([], stop)
  | phdr :: rest, stop =>
    if stop then ([], stop)
    else if phdr.p_type = PT_NOTE then
      let sb := elfSection img phdr
      let stop' := body stop sb
      let r := elfPhdrLoop body img rest stop'
      (sb :: r.1, r.2)
    else elfPhdrLoop body img rest stop

/-- Model of `dl_iterate_phdr`: runs the callback per image (each call starts with
a fresh `bool stop = false`) and stops iterating images once the callback
returns nonzero. -/
def enumerateTestContentSectionsELF (body : Bool → SWTSectionBounds → Bool) :
    List ElfImage → List SWTSectionBounds
  | [] => []
  | img :: rest =>
    let r := elfPhdrLoop body img img.dlpi_phdr false
    r.1 ++ (if r.2 then [] else enumerateTestContentSectionsELF body rest)

/-! ### Windows section locator -/

/-- The constant `IMAGE_DOS_SIGNATURE` (the bytes MZ). -/
def IMAGE_DOS_SIGNATURE : Nat := 0x5A4D

/-- The constant `IMAGE_NT_SIGNATURE` (PE followed by two NUL bytes). -/
def IMAGE_NT_SIGNATURE : Nat := 0x4550

/-- One `IMAGE_SECTION_HEADER`, with its fixed 8-byte name packed into a
single value (`strncmp` over the fixed `IMAGE_SIZEOF_SHORT_NAME = 8`
bytes is equality of those bytes). -/
structure WinSection where
  name : Nat
  virtualAddress : Nat
  virtualSize : Nat
  sizeOfRawData : Nat
  deriving Repr, DecidableEq

/-- A loaded module as `findSection` reads it: the base address the
`HMODULE` points at (= DOS header), the DOS magic, the `e_lfanew` offset
(a signed `LONG`), the NT signature at that offset, and the section
table. -/
structure WinModule where
  base : Nat
  e_magic : Nat
  e_lfanew : Int
  ntSignature : Nat
  sections : List WinSection
  deriving Repr, DecidableEq

/-- The section-table loop of `findSection`: skip sections with zero
virtual address; with the C locals `start = base + VirtualAddress` and
`size = min(VirtualSize, SizeOfRawData)` inlined, on a non-null start,
positive size and a name match, return the bounds with one pointer
stripped from each end provided `size > 2 * sizeof(uintptr_t)`;
otherwise keep scanning. -/
def findSectionLoop (base : Nat) (sectionName : Nat) :
    List WinSection → Option SWTSectionBounds
  | [] => none
  | s :: rest =>
    if s.virtualAddress = 0 then findSectionLoop base sectionName rest
    else if 0 < base + s.virtualAddress ∧
        0 < min s.virtualSize s.sizeOfRawData ∧ s.name = sectionName then
      if 2 * ptrSize < min s.virtualSize s.sizeOfRawData then
        some ⟨some base, (base + s.virtualAddress) + ptrSize,
          min s.virtualSize s.sizeOfRawData - 2 * ptrSize⟩
      else findSectionLoop base sectionName rest
    else findSectionLoop base sectionName rest

/-- The function `findSection`: reject a null module handle, a DOS-magic mismatch, a
non-positive `e_lfanew`, or an NT-signature mismatch (the `!ntHeader`
null check is subsumed: `dosHeader + e_lfanew` with `e_lfanew > 0` is
non-null); otherwise scan the section table. -/
def findSection : Option WinModule → Nat → Option SWTSectionBounds
  | none, _ => none
  | some m, sectionName =>
    if m.e_magic ≠ IMAGE_DOS_SIGNATURE ∨ m.e_lfanew ≤ 0 then none
    else if m.ntSignature ≠ IMAGE_NT_SIGNATURE then none
    else findSectionLoop m.base sectionName m.sections

/-- The 8 bytes of `".sw5test"`, packed. -/
def sw5test : Nat := 0x747365743577732E

/-- Phase one of the Windows `enumerateTestContentSections`: gather the
bounds of every module's `.sw5test` section into a side table
(`findSection` failures contribute nothing). -/
def winGatherSections (modules : List (Option WinModule)) :
    List SWTSectionBounds :=
  modules.filterMap (fun m => findSection m sw5test)

/-! ### Apple section locator -/

/-- One Mach-O image as the `objc_addLoadImageFunc` callback sees it: the
header address, whether `flags & MH_DYLIB_IN_CACHE` is set, and the
result of `getsectiondata(mhn, "__DATA_CONST", "__swift5_tests", &size)`
(`sectStart = 0` models a null pointer). -/
structure MachImage where
  address : Nat
  inSharedCache : Bool
  sectStart : Nat
  sectSize : Nat
  deriving Repr, DecidableEq

/-- The per-image load callback's effect on the shared cache: return
early for shared-cache images; append the section bounds (under the
lock) when the section is present and non-empty; otherwise leave the
cache unchanged. -/
def appendImage (cache : List SWTSectionBounds) (img : MachImage) :
    List SWTSectionBounds :=
  if img.inSharedCache then cache
  else if img.sectStart ≠ 0 ∧ 0 < img.sectSize then
    cache ++ [⟨some img.address, img.sectStart, img.sectSize⟩]
  else cache

/-- The function `getTestContentSections`: the snapshot copied out of the cache after
the callback has run for the images loaded so far. -/
def getTestContentSections (imgs : List MachImage) : List SWTSectionBounds :=
  imgs.foldl appendImage []

/-- The cache invariant, stated relative to the images the load
callback has actually run for: every cached element was appended from
one of those images, and that image is not resident in the shared
system cache, its section lookup succeeded (non-null start) and its
size is strictly positive. -/
def cacheInvFor (imgs : List MachImage) (cache : List SWTSectionBounds) : Prop :=
  ∀ sb ∈ cache, ∃ img ∈ imgs, img.inSharedCache = false ∧
    img.sectStart ≠ 0 ∧ 0 < img.sectSize ∧
    sb = ⟨some img.address, img.sectStart, img.sectSize⟩

/-! ### Static-link fallback -/

/-- The static-link fallback enumerator's visit list: its body
constructs one `SWTSectionBounds` from the two linker symbols —
`imageAddress` null, start at `sectionBegin`, size
`std::distance(&sectionBegin, &sectionEnd)` — and invokes the body once,
unconditionally, with no lock and no loop.  (In the source this function
is named `enumerateTypeMetadataSections` and does not compile as
written; see the claim it settles.) -/
def enumerateTypeMetadataSections (sectionBegin sectionEnd : Nat) :
    List SWTSectionBounds :=
  [⟨none, sectionBegin, sectionEnd - sectionBegin⟩]

/-! ### Record framing round-trip -/

/-- Little-endian bytes of a 32-bit value. -/
def encode32 (n : Nat) : List Nat :=
  [n % 256, n / 2 ^ 8 % 256, n / 2 ^ 16 % 256, n / 2 ^ 24 % 256]

/-- Read back a 32-bit little-endian value. -/
def decode32 : List Nat → Nat
  | b0 :: b1 :: b2 :: b3 :: _ => b0 + b1 * 2 ^ 8 + b2 * 2 ^ 16 + b3 * 2 ^ 24
  | _ => 0

/-- Encode one record: the 12-byte header (name size, description size,
type tag), the name blob padded to 4-byte alignment, the description
blob, the whole record padded to pointer-size alignment. -/
def encodeRecord (typ : Nat) (name desc : List Nat) : List Nat :=
  encode32 name.length ++ encode32 desc.length ++ encode32 typ ++
  name ++ List.replicate (alignUp name.length 4 - name.length) 0 ++
  desc ++ List.replicate
    (alignUp (headerSize + alignUp name.length 4 + desc.length) ptrSize -
      (headerSize + alignUp name.length 4 + desc.length)) 0

/-- Read the record header back from the encoded bytes. -/
def decodeHeader (bytes : List Nat) : SWTTestContentHeader :=
  ⟨decode32 bytes, decode32 (bytes.drop 4), decode32 (bytes.drop 8)⟩

/-! ### Concrete inputs used by witnesses and counterexamples -/

/-- Memory holding a minimal record header (all fields zero, 16-byte
framing) at every address. -/
def minimalMem : Mem := fun _ => ⟨0, 0, 0⟩

/-- Memory laying out the two records `⟨1, 2, 3⟩` (24 bytes) and
`⟨0, 0, 0⟩` (16 bytes) back-to-back from address 0. -/
def layoutMem : Mem := fun a => if a = 0 then ⟨1, 2, 3⟩ else ⟨0, 0, 0⟩

/-! ## Theorems -/

/-! ### alignUp arithmetic -/

theorem le_alignUp (x a : Nat) (ha : 0 < a) : x ≤ alignUp x a := by
  unfold alignUp
  have h := Nat.div_add_mod (x + a - 1) a
  have h2 := Nat.mod_lt (x + a - 1) ha
  rw [Nat.mul_comm]
  omega

theorem alignUp_lt (x a : Nat) (ha : 0 < a) : alignUp x a < x + a := by
  unfold alignUp
  have h := Nat.div_mul_le_self (x + a - 1) a
  omega

theorem dvd_alignUp (x a : Nat) : a ∣ alignUp x a := by
  unfold alignUp
  exact ⟨_, Nat.mul_comm _ _⟩

theorem alignUp_of_dvd (x a : Nat) (ha : 0 < a) (h : a ∣ x) : alignUp x a = x := by
  have h1 := le_alignUp x a ha
  have h2 := alignUp_lt x a ha
  obtain ⟨d, hd⟩ := Nat.dvd_sub' (dvd_alignUp x a) h
  have hda : a * d < a := by omega
  have hd0 : d = 0 := by
    by_contra hne
    have : a * 1 ≤ a * d := Nat.mul_le_mul_left a (by omega)
    omega
  rw [hd0, Nat.mul_zero] at hd
  omega

theorem alignUp_le_of_le (x y a : Nat) (h : x ≤ y) : alignUp x a ≤ alignUp y a := by
  unfold alignUp
  exact Nat.mul_le_mul_right a (Nat.div_le_div_right (by omega))

/-- Every record spans at least `alignUp headerSize ptrSize = 16` bytes:
the header alone, rounded up to pointer alignment. -/
theorem recordSize_ge (h : SWTTestContentHeader) :
    alignUp headerSize ptrSize ≤ recordSize h := by
  unfold recordSize
  exact alignUp_le_of_le _ _ _ (by omega)

theorem recordSize_pos (h : SWTTestContentHeader) : 0 < recordSize h := by
  have h1 := recordSize_ge h
  have h2 : alignUp headerSize ptrSize = 16 := by decide
  omega

theorem lt_nextAddr (mem : Mem) (addr : Nat) : addr < nextAddr mem addr := by
  unfold nextAddr
  have := recordSize_pos (mem addr)
  omega

/-! ### The record walker on well-formed layouts -/

/-- Every address the walker visits lies inside `[addr, ends)`: the walk
never reads a header at or past the section's end boundary. -/
theorem walkRecords_mem_bounds (f : Nat → Bool → Bool) (mem : Mem) :
    ∀ ends addr k stop, ∀ a ∈ (walkRecords f mem ends addr k stop).1,
      addr ≤ a ∧ a < ends := by
  intro ends addr k stop
  induction addr, k, stop using walkRecords.induct f mem ends with
  | case1 addr k stop h stop2 ih =>
    rw [walkRecords]
    simp only [dif_pos h]
    intro a ha
    rcases List.mem_cons.mp ha with rfl | ha
    · exact ⟨Nat.le_refl _, h⟩
    · have := ih a ha
      have h2 := lt_nextAddr mem addr
      omega
  | case2 addr k stop h =>
    rw [walkRecords]
    simp [h]

/-- On a section laid out back-to-back, a visitor that never raises the
stop flag is invoked once per record, at exactly the record addresses in
order; the walk leaves the invocation counter advanced by the record
count and the stop flag low. -/
theorem walkRecords_layout (f : Nat → Bool → Bool) (mem : Mem)
    (hf : ∀ i, f i false = false) :
    ∀ (hs : List SWTTestContentHeader) (start k : Nat),
      memLaysOut mem start hs →
      walkRecords f mem (start + sectionSize hs) start k false =
        (recordAddrs start hs, k + hs.length, false) := by
  intro hs
  induction hs with
  | nil =>
    intro start k _
    rw [walkRecords]
    simp [sectionSize, recordAddrs]
  | cons h hs ih =>
    intro start k hmem
    obtain ⟨hm1, hm2⟩ := hmem
    have hlt : start < start + sectionSize (h :: hs) := by
      have := recordSize_pos h
      simp only [sectionSize]
      omega
    rw [walkRecords]
    simp only [dif_pos hlt, hf k]
    have hnext : nextAddr mem start = start + recordSize h := by
      unfold nextAddr
      rw [hm1]
    have hends : start + sectionSize (h :: hs) =
        (start + recordSize h) + sectionSize hs := by
      simp only [sectionSize]
      omega
    rw [hnext, hends, ih (start + recordSize h) (k + 1) hm2]
    simp [recordAddrs]
    omega

/-- Record addresses start at or after `start`. -/
theorem recordAddrs_ge (hs : List SWTTestContentHeader) :
    ∀ start, ∀ a ∈ recordAddrs start hs, start ≤ a := by
  induction hs with
  | nil => intro start a ha; simp [recordAddrs] at ha
  | cons h hs ih =>
    intro start a ha
    simp only [recordAddrs, List.mem_cons] at ha
    rcases ha with rfl | ha
    · exact Nat.le_refl _
    · have := ih (start + recordSize h) a ha
      omega

/-- Record addresses are strictly ascending (hence pairwise distinct):
no record is visited twice, and visits occur in ascending address
order. -/
theorem recordAddrs_pairwise (hs : List SWTTestContentHeader) :
    ∀ start, (recordAddrs start hs).Pairwise (· < ·) := by
  induction hs with
  | nil => intro start; simp [recordAddrs]
  | cons h hs ih =>
    intro start
    simp only [recordAddrs]
    refine List.Pairwise.cons ?_ (ih (start + recordSize h))
    intro a ha
    have h1 := recordAddrs_ge hs (start + recordSize h) a ha
    have h2 := recordSize_pos h
    omega

/-- As many record addresses as records. -/
theorem recordAddrs_length (hs : List SWTTestContentHeader) :
    ∀ start, (recordAddrs start hs).length = hs.length := by
  induction hs with
  | nil => intro start; simp [recordAddrs]
  | cons h hs ih => intro start; simp [recordAddrs, ih]

/-- The last record's header address plus its framing size is exactly
`start + sectionSize`: the walk terminates exactly at the section's end
address. -/
theorem recordAddrs_getLast (hs : List SWTTestContentHeader) (hne : hs ≠ []) :
    ∀ start,
      ((recordAddrs start hs).getLast?).getD 0 +
        recordSize ((hs.getLast?).getD ⟨0, 0, 0⟩) =
      start + sectionSize hs := by
  induction hs with
  | nil => exact absurd rfl hne
  | cons h hs ih =>
    intro start
    cases hs with
    | nil =>
      simp [recordAddrs, sectionSize]
    | cons h2 t =>
      have hne2 : (h2 :: t) ≠ ([] : List SWTTestContentHeader) := by simp
      have e1 : recordAddrs start (h :: h2 :: t) =
          start :: (start + recordSize h) ::
            recordAddrs (start + recordSize h + recordSize h2) t := rfl
      have e2 : recordAddrs (start + recordSize h) (h2 :: t) =
          (start + recordSize h) ::
            recordAddrs (start + recordSize h + recordSize h2) t := rfl
      rw [e1, List.getLast?_cons_cons, ← e2, List.getLast?_cons_cons]
      have := ih hne2 (start + recordSize h)
      simp only [sectionSize] at this ⊢
      omega

/-- Driving the walker over a single section. -/
theorem enumSections_singleton (f : Nat → Bool → Bool) (mem : Mem)
    (sb : SWTSectionBounds) (k : Nat) (stop : Bool) :
    enumSections f mem [sb] k stop =
      (walkRecords f mem (sb.start + sb.size) sb.start k stop).1.map
        (fun a => (sb.imageAddress, a)) := by
  simp only [enumSections]
  split <;> simp

/-! ### ELF helper -/

theorem elfPhdrLoop_no_stop (body : Bool → SWTSectionBounds → Bool)
    (hbody : ∀ sb, body false sb = false) (img : ElfImage) :
    ∀ ps : List ElfPhdr,
      elfPhdrLoop body img ps false =
        ((ps.filter (fun p => decide (p.p_type = PT_NOTE))).map (elfSection img),
          false) := by
  intro ps
  induction ps with
  | nil => rfl
  | cons phdr rest ih =>
    simp only [elfPhdrLoop, Bool.false_eq_true, if_false, List.filter_cons]
    by_cases hp : phdr.p_type = PT_NOTE
    · simp [hp, hbody, ih]
    · simp [hp, ih]

/-! ### Encoder helpers -/

theorem decode32_encode32 (n : Nat) (rest : List Nat) :
    decode32 (encode32 n ++ rest) = n % 2 ^ 32 := by
  simp only [encode32, List.cons_append, List.nil_append, decode32]
  omega

theorem drop4_encode32 (n : Nat) (rest : List Nat) :
    (encode32 n ++ rest).drop 4 = rest := rfl

theorem drop8_encode32 (m n : Nat) (rest : List Nat) :
    (encode32 m ++ (encode32 n ++ rest)).drop 8 = rest := rfl

/-! ### Apple cache helpers -/

/-- One callback step, written as an append of either the image's bounds
(when the image qualifies: outside the shared cache, section present and
non-empty) or nothing. -/
theorem appendImage_eq (c : List SWTSectionBounds) (img : MachImage) :
    appendImage c img =
      c ++ (if img.inSharedCache = false ∧ img.sectStart ≠ 0 ∧ 0 < img.sectSize
        then [⟨some img.address, img.sectStart, img.sectSize⟩] else []) := by
  unfold appendImage
  by_cases h1 : img.inSharedCache = true
  · rw [if_pos h1, if_neg (by simp [h1]), List.append_nil]
  · rw [if_neg h1]
    by_cases h2 : img.sectStart ≠ 0 ∧ 0 < img.sectSize
    · rw [if_pos h2, if_pos ⟨by simpa using h1, h2.1, h2.2⟩]
    · rw [if_neg h2, if_neg (fun hc => h2 ⟨hc.2.1, hc.2.2⟩), List.append_nil]

/-- The cache built by folding the callback is exactly the qualifying
images' bounds, in load order. -/
theorem foldl_appendImage_eq (imgs : List MachImage) :
    ∀ c, imgs.foldl appendImage c =
      c ++ (imgs.filter (fun img => decide (img.inSharedCache = false ∧
          img.sectStart ≠ 0 ∧ 0 < img.sectSize))).map
        (fun img => ⟨some img.address, img.sectStart, img.sectSize⟩) := by
  induction imgs with
  | nil => intro c; simp
  | cons img rest ih =>
    intro c
    rw [List.foldl_cons, ih, appendImage_eq, List.filter_cons]
    by_cases h : img.inSharedCache = false ∧ img.sectStart ≠ 0 ∧ 0 < img.sectSize
    · simp [h]
    · simp [h]

theorem cacheInvFor_appendImage (imgs : List MachImage)
    (c : List SWTSectionBounds) (img : MachImage)
    (h : cacheInvFor imgs c) :
    cacheInvFor (imgs ++ [img]) (appendImage c img) := by
  rw [appendImage_eq]
  intro sb hsb
  rcases List.mem_append.mp hsb with hm | hm
  · obtain ⟨i, hi, h1, h2, h3, h4⟩ := h sb hm
    exact ⟨i, List.mem_append_left _ hi, h1, h2, h3, h4⟩
  · by_cases hg : img.inSharedCache = false ∧ img.sectStart ≠ 0 ∧ 0 < img.sectSize
    · rw [if_pos hg] at hm
      exact ⟨img, List.mem_append_right _ (List.mem_singleton.mpr rfl),
        hg.1, hg.2.1, hg.2.2, by simpa using hm⟩
    · rw [if_neg hg] at hm
      simp at hm

theorem cacheInvFor_snapshot (imgs : List MachImage) :
    cacheInvFor imgs (getTestContentSections imgs) := by
  unfold getTestContentSections
  rw [foldl_appendImage_eq, List.nil_append]
  intro sb hsb
  obtain ⟨img, hmem, rfl⟩ := List.mem_map.mp hsb
  have hf := List.mem_filter.mp hmem
  have hp := of_decide_eq_true hf.2
  exact ⟨img, hf.1, hp.1, hp.2.1, hp.2.2, rfl⟩

/-! ## Claims -/

/-- C1: the code refutes the claim.  The claim says that setting the stop
flag on the kth invocation prevents every later invocation, in the
current section as well as in subsequent sections.  In the code the
record loop's condition tests only `header < end` and never consults
`*stop`, so a visitor that sets the stop flag on its first invocation is
still invoked for the second record of the same section (only the
following sections are skipped): on a 32-byte section holding two
minimal 16-byte records followed by a second section, the visit list has
two entries from the first section, where the claim requires exactly
one. -/
theorem stopFlag_ignored_within_section_at_failing_input :
    swt_enumerateTestContent (fun _ _ => true) minimalMem
      [⟨some 100, 0, 32⟩, ⟨some 200, 1000, 16⟩] =
      [(some 100, 0), (some 100, 16)] := by
  simp [swt_enumerateTestContent, enumSections, walkRecords, nextAddr,
    minimalMem, recordSize, alignUp, headerSize, ptrSize]

/-- C6: evaluation of the static-link fallback's body as written (the
claim is settled as a code bug: in the source this function is named
`enumerateTypeMetadataSections`, uses the ill-formed type
`SWTSectionBounds<SWTTypeMetadataRecord>`, and is never reachable from
`swt_enumerateTestContent`, which calls the undefined
`enumerateTestContentSections` in that configuration).  The body itself
invokes the section visitor exactly once, unconditionally, with a single
`SWTSectionBounds` whose start is the begin symbol, whose size is the
address difference of the two linker symbols, and whose image base is
absent; no lock and no loop over modules occurs. -/
theorem static_fallback_single_shot (b e : Nat) :
    enumerateTypeMetadataSections b e = [⟨none, b, e - b⟩] ∧
    (enumerateTypeMetadataSections b e).length = 1 :=
  ⟨rfl, rfl⟩

/-- C7: a section of size 0 produces zero visitor invocations (the record
loop's entry condition `header < start + 0` is false immediately), an
empty section list produces zero invocations, and in general every
address the walker dereferences lies inside `[start, start + size)`. -/
theorem empty_or_absent_section_no_visits :
    (∀ (f : Nat → Bool → Bool) (mem : Mem) (start k : Nat) (stop : Bool),
      walkRecords f mem (start + 0) start k stop = ([], k, stop)) ∧
    (∀ (f : Nat → Bool → Bool) (mem : Mem) (img : Option Nat) (start : Nat),
      swt_enumerateTestContent f mem [⟨img, start, 0⟩] = []) ∧
    (∀ (f : Nat → Bool → Bool) (mem : Mem),
      swt_enumerateTestContent f mem [] = []) ∧
    (∀ (f : Nat → Bool → Bool) (mem : Mem) (ends addr k : Nat) (stop : Bool),
      ∀ a ∈ (walkRecords f mem ends addr k stop).1, addr ≤ a ∧ a < ends) := by
  have h0 : ∀ (f : Nat → Bool → Bool) (mem : Mem) (start k : Nat) (stop : Bool),
      walkRecords f mem (start + 0) start k stop = ([], k, stop) := by
    intro f mem start k stop
    rw [walkRecords]
    simp
  refine ⟨h0, ?_, ?_, fun f mem => walkRecords_mem_bounds f mem⟩
  · intro f mem img start
    unfold swt_enumerateTestContent
    rw [enumSections_singleton]
    simp only [h0]
    rfl
  · intro f mem
    rfl

/-- C7 witness: a size-0 section at a concrete start yields no visits,
and a concrete visited address lies inside its section's bounds. -/
theorem empty_or_absent_section_no_visits_witness :
    swt_enumerateTestContent (fun _ _ => true) minimalMem [⟨none, 5, 0⟩] = [] ∧
    (0 ≤ 0 ∧ 0 < 16) :=
  ⟨empty_or_absent_section_no_visits.2.1 (fun _ _ => true) minimalMem none 5,
    empty_or_absent_section_no_visits.2.2.2 (fun _ _ => true) minimalMem 16 0 0
      false 0
      (by simp [walkRecords, nextAddr, minimalMem, recordSize, alignUp,
        headerSize, ptrSize])⟩

/-- C10: for every record header (with the non-negative size fields the
model fixes), the next-header address exceeds the current one by at least
the pointer-aligned header size, which is positive; hence the remaining
distance to the section end strictly decreases on every step of the
walk, making the per-section iteration well-founded. -/
theorem record_walk_strictly_advances :
    (∀ h : SWTTestContentHeader,
      alignUp headerSize ptrSize ≤ recordSize h ∧ 0 < recordSize h) ∧
    (∀ (mem : Mem) (addr : Nat),
      addr + alignUp headerSize ptrSize ≤ nextAddr mem addr) ∧
    (∀ (mem : Mem) (addr ends : Nat), addr < ends →
      ends - nextAddr mem addr < ends - addr) := by
  refine ⟨fun h => ⟨recordSize_ge h, recordSize_pos h⟩, ?_, ?_⟩
  · intro mem addr
    have := recordSize_ge (mem addr)
    unfold nextAddr
    omega
  · intro mem addr ends hlt
    have := lt_nextAddr mem addr
    omega

/-- C10 witness: at a concrete input the remaining distance shrinks. -/
theorem record_walk_strictly_advances_witness :
    16 - nextAddr minimalMem 0 < 16 - 0 :=
  record_walk_strictly_advances.2.2 minimalMem 0 16 (by decide)

/-- C2: for a section of size `sectionSize hs` holding the records `hs`
back-to-back (and a visitor that never sets the stop flag), the walk in
`swt_enumerateTestContent` invokes the visitor exactly `hs.length` times,
once per record at exactly the record addresses, in strictly ascending
order with no duplicates; the last record's header address plus its
framing size equals `start + size` exactly (so the walk terminates
exactly at the section's end), and every visited address lies inside the
section. -/
theorem wellFormed_section_walk_exact (f : Nat → Bool → Bool) (mem : Mem)
    (img : Option Nat) (start : Nat) (hs : List SWTTestContentHeader)
    (hf : ∀ i, f i false = false)
    (hmem : memLaysOut mem start hs) :
    swt_enumerateTestContent f mem [⟨img, start, sectionSize hs⟩] =
      (recordAddrs start hs).map (fun a => (img, a)) ∧
    (recordAddrs start hs).length = hs.length ∧
    (recordAddrs start hs).Pairwise (· < ·) ∧
    (hs ≠ [] →
      ((recordAddrs start hs).getLast?).getD 0 +
        recordSize ((hs.getLast?).getD ⟨0, 0, 0⟩) = start + sectionSize hs) ∧
    (∀ a ∈ recordAddrs start hs, start ≤ a ∧ a < start + sectionSize hs) := by
  have hw := walkRecords_layout f mem hf hs start 0 hmem
  refine ⟨?_, recordAddrs_length hs start, recordAddrs_pairwise hs start,
    fun hne => recordAddrs_getLast hs hne start, ?_⟩
  · unfold swt_enumerateTestContent
    rw [enumSections_singleton]
    simp only
    rw [hw]
  · intro a ha
    refine walkRecords_mem_bounds f mem (start + sectionSize hs) start 0 false a ?_
    rw [hw]
    exact ha

/-- C2 witness: the walk over a 40-byte section holding the records
`⟨1, 2, 3⟩` (24 bytes) and `⟨0, 0, 0⟩` (16 bytes) visits exactly the two
header addresses 0 and 24, in order. -/
theorem wellFormed_section_walk_exact_witness :
    swt_enumerateTestContent (fun _ s => s) layoutMem [⟨some 5, 0, 40⟩] =
      [(some 5, 0), (some 5, 24)] := by
  have h := wellFormed_section_walk_exact (fun _ s => s) layoutMem (some 5) 0
    [⟨1, 2, 3⟩, ⟨0, 0, 0⟩] (fun _ => rfl)
    (by
      refine ⟨rfl, ?_, trivial⟩
      have : recordSize ⟨1, 2, 3⟩ = 24 := by decide
      rw [this]
      rfl)
  have h1 := h.1
  have hsz : sectionSize [⟨1, 2, 3⟩, ⟨0, 0, 0⟩] = 40 := by decide
  have haddr : recordAddrs 0 [⟨1, 2, 3⟩, ⟨0, 0, 0⟩] = [0, 24] := by decide
  rw [hsz, haddr] at h1
  simpa using h1

/-- C3: record framing round-trips.  Encoding a record with any
name-size and description-size (below the `int32` bound; `a = 0, b = 0`
and padding-requiring values included), then decoding the header back
from the bytes and computing the next-record offset
`alignUp(headerSize + alignUp(nameSize, 4) + descSize, ptrSize)` from
it, reproduces exactly the number of bytes the encoder emitted: no
off-by-one and no alignment drift. -/
theorem record_framing_round_trip (typ : Nat) (name desc : List Nat)
    (ha : name.length < 2 ^ 31) (hb : desc.length < 2 ^ 31) :
    recordSize (decodeHeader (encodeRecord typ name desc)) =
      (encodeRecord typ name desc).length := by
  have hmod : ∀ n : Nat, n < 2 ^ 31 → n % 2 ^ 32 = n := by
    intro n hn
    exact Nat.mod_eq_of_lt (by omega)
  have hdec : decodeHeader (encodeRecord typ name desc) =
      ⟨name.length, desc.length, typ % 2 ^ 32⟩ := by
    unfold decodeHeader encodeRecord
    simp only [List.append_assoc]
    rw [decode32_encode32, drop4_encode32, decode32_encode32, drop8_encode32,
      decode32_encode32, hmod _ ha, hmod _ hb]
  rw [hdec]
  have hrs : recordSize ⟨name.length, desc.length, typ % 2 ^ 32⟩ =
      alignUp (12 + alignUp name.length 4 + desc.length) 8 := rfl
  have hlen : (encodeRecord typ name desc).length =
      12 + name.length + (alignUp name.length 4 - name.length) + desc.length +
        (alignUp (12 + alignUp name.length 4 + desc.length) 8 -
          (12 + alignUp name.length 4 + desc.length)) := by
    simp [encodeRecord, encode32, headerSize, ptrSize]
    omega
  rw [hrs, hlen]
  have h4 := le_alignUp name.length 4 (by omega)
  have h8 := le_alignUp (12 + alignUp name.length 4 + desc.length) 8 (by omega)
  omega

/-- C4: for a Windows module with valid image headers whose section
table holds the section bearing the queried 8-byte name (nonzero virtual
address), `findSection` computes the candidate size
`min(virtualSize, rawDataSize)`; when it exceeds `2 * ptrSize` it
returns bounds starting one pointer past the section start with the
candidate size less two pointers, and otherwise reports the section as
absent. -/
theorem findSection_trims_pointer_sentinels (m : WinModule) (s : WinSection)
    (hsec : m.sections = [s])
    (hmagic : m.e_magic = IMAGE_DOS_SIGNATURE)
    (hlfanew : 0 < m.e_lfanew)
    (hsig : m.ntSignature = IMAGE_NT_SIGNATURE)
    (hva : s.virtualAddress ≠ 0)
    (hname : s.name = sw5test) :
    findSection (some m) sw5test =
      if 2 * ptrSize < min s.virtualSize s.sizeOfRawData then
        some ⟨some m.base, (m.base + s.virtualAddress) + ptrSize,
          min s.virtualSize s.sizeOfRawData - 2 * ptrSize⟩
      else none := by
  have hstart : 0 < m.base + s.virtualAddress := by omega
  simp only [findSection, hsec]
  rw [if_neg (by rw [not_or]; exact ⟨by simp [hmagic], by omega⟩),
    if_neg (by simp [hsig])]
  unfold findSectionLoop
  rw [if_neg hva]
  by_cases hsz : 0 < min s.virtualSize s.sizeOfRawData
  · rw [if_pos ⟨hstart, hsz, hname⟩]
    by_cases h2p : 2 * ptrSize < min s.virtualSize s.sizeOfRawData
    · rw [if_pos h2p, if_pos h2p]
    · rw [if_neg h2p, if_neg h2p]
      rfl
  · have h2p : ¬ 2 * ptrSize < min s.virtualSize s.sizeOfRawData := by
      unfold ptrSize
      omega
    rw [if_neg (fun hc => hsz hc.2.1), if_neg h2p]
    rfl

/-- C4 witness: a synthetic section of size `2 * ptrSize + 24 = 40`
(virtual size 40, raw-data size 64) is reported with its start advanced
by one pointer and size 24; all header signatures valid. -/
theorem findSection_trims_pointer_sentinels_witness :
    findSection (some ⟨4194304, 23117, 128, 17744, [⟨sw5test, 4096, 40, 64⟩]⟩)
      sw5test = some ⟨some 4194304, 4198408, 24⟩ := by
  have h := findSection_trims_pointer_sentinels
    ⟨4194304, 23117, 128, 17744, [⟨sw5test, 4096, 40, 64⟩]⟩
    ⟨sw5test, 4096, 40, 64⟩ rfl (by decide) (by decide) (by decide) (by decide)
    rfl
  simpa using h

/-- C5: on ELF-family platforms, with a visitor that never sets the stop
flag, every `PT_NOTE` program header of every loaded image yields exactly
one `SWTSectionBounds` — base from the image, start `dlpi_addr + p_vaddr`,
size `p_memsz` — passed straight to the section visitor, in image order,
with no name filtering and no caching; headers of any other type
contribute nothing. -/
theorem elf_every_note_header_visited (body : Bool → SWTSectionBounds → Bool)
    (hbody : ∀ sb, body false sb = false) :
    ∀ imgs : List ElfImage,
      enumerateTestContentSectionsELF body imgs =
        imgs.flatMap (fun img =>
          (img.dlpi_phdr.filter (fun p => decide (p.p_type = PT_NOTE))).map
            (elfSection img)) := by
  intro imgs
  induction imgs with
  | nil => rfl
  | cons img rest ih =>
    simp only [enumerateTestContentSectionsELF,
      elfPhdrLoop_no_stop body hbody img, List.flatMap_cons]
    simp [ih]

/-- C5 witness: two images, the first with one note header and one
non-note header, the second with one note header: exactly the two note
headers are visited, as bounds built from image base, virtual address
and memory size. -/
theorem elf_every_note_header_visited_witness :
    enumerateTestContentSectionsELF (fun s _ => s)
      [⟨10, [⟨4, 100, 8⟩, ⟨1, 0, 0⟩]⟩, ⟨20, [⟨4, 0, 16⟩]⟩] =
      [⟨some 10, 110, 8⟩, ⟨some 20, 20, 16⟩] := by
  have h := elf_every_note_header_visited (fun s _ => s) (fun _ => rfl)
    [⟨10, [⟨4, 100, 8⟩, ⟨1, 0, 0⟩]⟩, ⟨20, [⟨4, 0, 16⟩]⟩]
  simpa [elfSection, PT_NOTE] using h

/-- C8: a Windows module whose image headers fail validation — DOS magic
mismatch, non-positive `e_lfanew`, or NT signature mismatch — yields
`none` from `findSection`, and the gathered section list is exactly the
one obtained with that module removed: the other modules are still
examined and enumeration does not fail. -/
theorem malformed_win_module_skipped (m : WinModule)
    (hbad : m.e_magic ≠ IMAGE_DOS_SIGNATURE ∨ m.e_lfanew ≤ 0 ∨
      m.ntSignature ≠ IMAGE_NT_SIGNATURE) :
    findSection (some m) sw5test = none ∧
    ∀ pre post : List (Option WinModule),
      winGatherSections (pre ++ some m :: post) =
        winGatherSections (pre ++ post) := by
  have hnone : findSection (some m) sw5test = none := by
    simp only [findSection]
    rcases hbad with h | h | h
    · rw [if_pos (Or.inl h)]
    · rw [if_pos (Or.inr h)]
    · by_cases h1 : m.e_magic ≠ IMAGE_DOS_SIGNATURE ∨ m.e_lfanew ≤ 0
      · rw [if_pos h1]
      · rw [if_neg h1, if_pos h]
  refine ⟨hnone, ?_⟩
  intro pre post
  unfold winGatherSections
  simp [List.filterMap_append, List.filterMap_cons, hnone]

/-- C8 witness: a module with an all-zero header is skipped while
enumeration proceeds: its `findSection` is `none` and gathering over a
list holding it equals gathering with it removed. -/
theorem malformed_win_module_skipped_witness :
    findSection (some ⟨0, 0, 0, 0, []⟩) sw5test = none ∧
    winGatherSections [some ⟨0, 0, 0, 0, []⟩,
        some ⟨4194304, 23117, 128, 17744, [⟨sw5test, 4096, 40, 64⟩]⟩] =
      winGatherSections
        [some ⟨4194304, 23117, 128, 17744, [⟨sw5test, 4096, 40, 64⟩]⟩] := by
  have h := malformed_win_module_skipped ⟨0, 0, 0, 0, []⟩ (Or.inl (by decide))
  exact ⟨h.1, h.2 []
    [some ⟨4194304, 23117, 128, 17744, [⟨sw5test, 4096, 40, 64⟩]⟩]⟩

/-- C9: every element of every snapshot returned by
`getTestContentSections` traces to one of the images the load callback
actually ran for, and that image is not resident in the shared system
cache, its section lookup succeeded (non-null start) and its size is
strictly positive; equivalently, the snapshot is exactly the bounds of
the qualifying images in load order (so shared-cache images contribute
nothing); and the traced invariant is preserved by the only mutating
operation, the per-image append. -/
theorem apple_cache_invariant_preserved :
    (∀ imgs : List MachImage, cacheInvFor imgs (getTestContentSections imgs)) ∧
    (∀ imgs : List MachImage,
      getTestContentSections imgs =
        (imgs.filter (fun img => decide (img.inSharedCache = false ∧
            img.sectStart ≠ 0 ∧ 0 < img.sectSize))).map
          (fun img => ⟨some img.address, img.sectStart, img.sectSize⟩)) ∧
    (∀ (imgs : List MachImage) (c : List SWTSectionBounds) (img : MachImage),
      cacheInvFor imgs c → cacheInvFor (imgs ++ [img]) (appendImage c img)) :=
  ⟨cacheInvFor_snapshot,
    fun imgs => by
      unfold getTestContentSections
      rw [foldl_appendImage_eq, List.nil_append],
    cacheInvFor_appendImage⟩

/-- C9 witness: appending a qualifying image to the empty cache
preserves the traced invariant, and on a concrete image list the
snapshot holds exactly the non-shared-cache image's bounds — the
shared-cache image contributes nothing. -/
theorem apple_cache_invariant_preserved_witness :
    cacheInvFor [⟨7, false, 42, 9⟩] (appendImage [] ⟨7, false, 42, 9⟩) ∧
    getTestContentSections [⟨1, true, 5, 5⟩, ⟨7, false, 42, 9⟩] =
      [⟨some 7, 42, 9⟩] := by
  constructor
  · have h := apple_cache_invariant_preserved.2.2 [] [] ⟨7, false, 42, 9⟩
      (by intro sb hsb; simp at hsb)
    simpa using h
  · have h2 := apple_cache_invariant_preserved.2.1
      [⟨1, true, 5, 5⟩, ⟨7, false, 42, 9⟩]
    rw [h2]
    rfl

/-- C3 witness: a record with name size 5 (3 bytes of name padding) and
description size 3 (1 byte of record padding) round-trips; the encoder
emits 24 bytes. -/
theorem record_framing_round_trip_witness :
    recordSize (decodeHeader (encodeRecord 7 [1, 2, 3, 4, 5] [6, 7, 8])) =
      (encodeRecord 7 [1, 2, 3, 4, 5] [6, 7, 8]).length ∧
    (encodeRecord 7 [1, 2, 3, 4, 5] [6, 7, 8]).length = 24 :=
  ⟨record_framing_round_trip 7 [1, 2, 3, 4, 5] [6, 7, 8] (by decide) (by decide),
    by decide⟩

end Discovery
